import Mathlib

/-!
Verification of the indicator-engine core of the crypto_iot_project repository.

The development shallowly embeds the Python modules
`core/rules.py`, `core/backtester.py`, `core/indicators.py` and
`core/ohlc_fetcher.py`:

* pandas cell values are `Option ℚ` (`none` models NaN) or, where IEEE
  infinities can arise (the RSI pipeline), a four-constructor float model `FV`;
* series are Lean lists, with the list position playing the role of the
  timestamp index;
* fallible code returns `Except`/`Option` or an explicit outcome type;
* Python `float` arithmetic on the finite values appearing in the claims is
  modelled by exact rational arithmetic.
-/

namespace CryptoIot

/-! ## rules.py — combine_signals -/

/-- A pandas cell value: `none` models NaN (undefined entry), `some q` a
finite number. -/
abbrev PVal := Option ℚ

/-- pandas comparison `v > 0`; any comparison against NaN is false. -/
def pvalPos : PVal → Bool
  | none => false
  | some q => decide (0 < q)

/-- pandas comparison `v < 0`; any comparison against NaN is false. -/
def pvalNeg : PVal → Bool
  | none => false
  | some q => decide (q < 0)

/-- Row `i` of `pd.concat(signals, axis=1)`: one cell per input series, an
out-of-range index contributing NaN (outer alignment fill). -/
def colAt (signals : List (List PVal)) (i : ℕ) : List PVal :=
  signals.map (fun s => s.getD i none)

/-- One row of the `and` branch of `combine_signals`: the code first writes 1
where all cells are positive and then writes -1 where all are negative, so on
a (possible only if empty) conflict the -1 write is the one that survives. -/
def andRow (col : List PVal) : ℤ :=
  if col.all pvalNeg then -1
  else if col.all pvalPos then 1
  else 0

/-- One row of the `or` branch of `combine_signals`: 1 where some cell is
positive and none negative, -1 where some is negative and none positive,
otherwise 0. -/
def orRow (col : List PVal) : ℤ :=
  if col.any pvalPos && !(col.any pvalNeg) then 1
  else if col.any pvalNeg && !(col.any pvalPos) then -1
  else 0

/-- Python `str.lower()`, character by character (all logic strings in play
are ASCII). -/
def pyLower (s : String) : String := String.mk (s.data.map Char.toLower)

/-- `combine_signals(signals, logic)` from `core/rules.py`.  `none` models the
`ValueError` raised on an empty signal list or an unrecognised logic string;
otherwise the combined series has one row per index of the aligned frame
(the longest input). -/
def combine_signals (signals : List (List PVal)) (logic : String) : Option (List ℤ) :=
  if signals.isEmpty then none
  else
    let n := (signals.map List.length).foldr Nat.max 0
    if pyLower logic = "and" then
      some ((List.range n).map (fun i => andRow (colAt signals i)))
    else if pyLower logic = "or" then
      some ((List.range n).map (fun i => orRow (colAt signals i)))
    else none

/-! ## backtester.py — backtest_strategy

A bar of the input frame is a pair (close price, signal value); the list
position is the bar's timestamp (`df.iterrows` paired with `signal.loc[ts]`).
Python raises `ZeroDivisionError` where a division by zero would occur
(`entry_price = 0`); rational division then yields the junk value 0, which no
claim below depends on. -/

/-- The `Trade` dataclass of `core/backtester.py`, with timestamps as bar
indices. -/
structure Trade where
  entry_time : ℕ
  exit_time : ℕ
  entry_price : ℚ
  exit_price : ℚ
  profit_pct : ℚ
deriving DecidableEq, Repr

/-- The loop state of `backtest_strategy`: position flag, pending entry data,
emitted trades, realized capital, per-bar equity and per-bar returns. -/
structure BTState where
  position_open : Bool
  entry_price : Option ℚ
  entry_time : Option ℕ
  trades : List Trade
  capital : ℚ
  equity : List ℚ
  returns : List ℚ
deriving DecidableEq, Repr

/-- Python truthiness of the optional `entry_price` (`None` and `0.0` are
falsy in the guard `if position_open and entry_price`). -/
def pyTruthy : Option ℚ → Bool
  | none => false
  | some q => decide (q ≠ 0)

/-- The open/close transition of one loop iteration of `backtest_strategy`:
open on a positive signal while flat, close (emitting a `Trade` and updating
realized capital) on a negative signal while long, otherwise leave the state
unchanged. -/
def btCore (fee : ℚ) (st : BTState) (ts : ℕ) (price sig : ℚ) : BTState :=
  if 0 < sig ∧ st.position_open = false then
    { st with position_open := true
              entry_price := some (price * (1 + fee))
              entry_time := some ts }
  else if sig < 0 ∧ st.position_open = true then
    let ep := st.entry_price.getD 0
    let exit_price := price * (1 - fee)
    let profit_pct := (exit_price - ep) / ep
    { st with trades := st.trades ++ [⟨st.entry_time.getD 0, ts, ep, exit_price, profit_pct⟩]
              capital := st.capital * (1 + profit_pct)
              position_open := false
              entry_price := none
              entry_time := none }
  else st

/-- One iteration of the `for ts, row in df.iterrows()` loop of
`backtest_strategy`.  Note that `last_price = price` is executed before the
return is appended, so the "unrealised PnL" expression divides the change of
`price` against itself. -/
def btStep (fee : ℚ) (st : BTState) (ts : ℕ) (price sig : ℚ) : BTState :=
  let last_price := price
  let st1 := btCore fee st ts price sig
  let ret :=
    if st1.position_open = true ∧ pyTruthy st1.entry_price = true then
      (if last_price ≠ 0 then (price - last_price) / last_price else 0)
    else 0
  { st1 with returns := st1.returns ++ [ret]
             equity := st1.equity ++ [st1.capital] }

/-- The whole bar loop, threading the current bar index. -/
def btRun (fee : ℚ) : BTState → ℕ → List (ℚ × ℚ) → BTState
  | st, _, [] => st
  | st, ts, (price, sig) :: rest => btRun fee (btStep fee st ts price sig) (ts + 1) rest

/-- The state before the first bar. -/
def btInit (initial_capital : ℚ) : BTState :=
  ⟨false, none, none, [], initial_capital, [], []⟩

/-- `(1 + returns).cumprod()` with running product accumulator. -/
def cumprodAux (acc : ℚ) : List ℚ → List ℚ
  | [] => []
  | r :: rest => (acc * (1 + r)) :: cumprodAux (acc * (1 + r)) rest

/-- `_compute_equity_curve` of `core/backtester.py` (the `fillna(0)` is a
no-op on the always-defined rational returns produced by the loop). -/
def compute_equity_curve (returns : List ℚ) : List ℚ :=
  cumprodAux 1 returns

/-- `cummax()` continuation given the running maximum so far. -/
def cummaxFrom (m : ℚ) : List ℚ → List ℚ
  | [] => []
  | x :: xs => (max m x) :: cummaxFrom (max m x) xs

/-- `Series.cummax()`. -/
def cummax : List ℚ → List ℚ
  | [] => []
  | x :: xs => x :: cummaxFrom x xs

/-- `Series.min()`, with the 0.0 default of the empty-drawdown branch. -/
def listMin : List ℚ → ℚ
  | [] => 0
  | x :: xs => xs.foldl min x

/-- The fields of `BacktestResult` that the claims mention.  `sharpe` is
omitted: it multiplies by an irrational `sqrt(len)` and no claim concerns
it. -/
structure BacktestResult where
  trades : List Trade
  equity_curve : List ℚ
  pnl : ℚ
  win_rate : ℚ
  max_drawdown : ℚ
deriving DecidableEq, Repr

/-- `backtest_strategy(df, signal, initial_capital, fee_pct)` of
`core/backtester.py`, up to the fields listed in `BacktestResult`. -/
def backtest_strategy (bars : List (ℚ × ℚ)) (initial_capital : ℚ) (fee_pct : ℚ) :
    BacktestResult :=
  let final := btRun fee_pct (btInit initial_capital) 0 bars
  let pnl := final.capital / initial_capital - 1
  let win_trades := final.trades.filter (fun t => decide (0 < t.profit_pct))
  let win_rate : ℚ :=
    if final.trades.isEmpty then 0
    else (win_trades.length : ℚ) / (final.trades.length : ℚ)
  let eq_curve := compute_equity_curve final.returns
  let running_max := cummax eq_curve
  let drawdowns := List.zipWith (fun e m => (e - m) / m) eq_curve running_max
  let max_drawdown := |listMin drawdowns|
  ⟨final.trades, eq_curve.map (fun x => x * initial_capital), pnl, win_rate, max_drawdown⟩

/-! ## Claims about the backtester -/

/-- C5: on close prices 100,105,95,110,90 with signal +1,0,-1,+1,-1 and zero
fees, the backtest emits exactly the trade entering at 100 and exiting at 95
with profit -5 percent, then the trade entering at 110 and exiting at 90 with
profit (90-110)/110, and reports a win rate of 0. -/
theorem C5_backtest_scenario :
    (backtest_strategy [(100, 1), (105, 0), (95, -1), (110, 1), (90, -1)] 10000 0).trades =
      [⟨0, 2, 100, 95, -5/100⟩, ⟨3, 4, 110, 90, (90 - 110)/110⟩] ∧
    (backtest_strategy [(100, 1), (105, 0), (95, -1), (110, 1), (90, -1)] 10000 0).win_rate = 0 := by
  norm_num [backtest_strategy, btRun, btStep, btCore, btInit, pyTruthy, compute_equity_curve,
    cumprodAux, cummax, cummaxFrom, listMin, Trade.mk.injEq]

/-- C1: the claim fails on the code.  `backtest_strategy` sets
`last_price = price` in the same iteration before appending the return,
so every per-bar return is 0 even while Long; on closes 100,105 with signal
+1,0 the position is Long at bar 1 and the claim requires the equity curve
10000, 10500, but the code produces the constant curve 10000, 10000. -/
theorem C1_equity_curve_constant :
    (btRun 0 (btInit 10000) 0 [(100, 1), (105, 0)]).returns = [0, 0] ∧
    (backtest_strategy [(100, 1), (105, 0)] 10000 0).equity_curve = [10000, 10000] ∧
    (backtest_strategy [(100, 1), (105, 0)] 10000 0).equity_curve ≠ [10000, 10500] := by
  norm_num [backtest_strategy, btRun, btStep, btCore, btInit, pyTruthy, compute_equity_curve,
    cumprodAux, cummax, cummaxFrom, listMin]

/-- Loop invariant of `backtest_strategy` after the bars before index `ts`
have been processed: every emitted trade closes after it opens and strictly
before `ts`, consecutive trades do not overlap, and while a position is open
its entry lies strictly after every emitted exit and strictly before `ts`. -/
def TradesInv (st : BTState) (ts : ℕ) : Prop :=
  (∀ t ∈ st.trades, t.entry_time < t.exit_time) ∧
  (∀ t ∈ st.trades, t.exit_time < ts) ∧
  st.trades.Chain' (fun a b => a.exit_time < b.entry_time) ∧
  (st.position_open = true → ∃ et, st.entry_time = some et ∧ et < ts ∧
    ∀ t ∈ st.trades, t.exit_time < et)

theorem btStep_trades (fee : ℚ) (st : BTState) (ts : ℕ) (price sig : ℚ) :
    (btStep fee st ts price sig).trades = (btCore fee st ts price sig).trades := rfl

theorem btStep_position_open (fee : ℚ) (st : BTState) (ts : ℕ) (price sig : ℚ) :
    (btStep fee st ts price sig).position_open = (btCore fee st ts price sig).position_open :=
  rfl

theorem btStep_entry_time (fee : ℚ) (st : BTState) (ts : ℕ) (price sig : ℚ) :
    (btStep fee st ts price sig).entry_time = (btCore fee st ts price sig).entry_time := rfl

theorem btCore_inv (fee : ℚ) (st : BTState) (ts : ℕ) (price sig : ℚ)
    (h : TradesInv st ts) : TradesInv (btCore fee st ts price sig) (ts + 1) := by
  obtain ⟨h1, h2, h3, h4⟩ := h
  unfold btCore
  split_ifs with hopen hclose
  · exact ⟨h1, fun t ht => Nat.lt_succ_of_lt (h2 t ht), h3,
      fun _ => ⟨ts, rfl, Nat.lt_succ_self ts, h2⟩⟩
  · obtain ⟨et, het, hlt, hall⟩ := h4 hclose.2
    refine ⟨?_, ?_, ?_, ?_⟩
    · intro t ht
      rcases List.mem_append.mp ht with hmem | hmem
      · exact h1 t hmem
      · simp only [List.mem_singleton] at hmem
        subst hmem
        simpa [het] using hlt
    · intro t ht
      rcases List.mem_append.mp ht with hmem | hmem
      · exact Nat.lt_succ_of_lt (h2 t hmem)
      · simp only [List.mem_singleton] at hmem
        subst hmem
        exact Nat.lt_succ_self ts
    · refine List.chain'_append.mpr ⟨h3, List.chain'_singleton _, ?_⟩
      intro x hx y hy
      simp only [List.head?_cons, Option.mem_def, Option.some.injEq] at hy
      subst hy
      have hxmem : x ∈ st.trades := by
        obtain ⟨hne, hxe⟩ := List.mem_getLast?_eq_getLast hx
        subst hxe
        exact List.getLast_mem hne
      simpa [het] using hall x hxmem
    · intro hcontra
      simp at hcontra
  · exact ⟨h1, fun t ht => Nat.lt_succ_of_lt (h2 t ht), h3,
      fun hop => by
        obtain ⟨et, het, hlt, hall⟩ := h4 hop
        exact ⟨et, het, Nat.lt_succ_of_lt hlt, hall⟩⟩

theorem btStep_inv (fee : ℚ) (st : BTState) (ts : ℕ) (price sig : ℚ)
    (h : TradesInv st ts) : TradesInv (btStep fee st ts price sig) (ts + 1) := by
  have hc := btCore_inv fee st ts price sig h
  unfold TradesInv at hc ⊢
  rw [btStep_trades, btStep_position_open, btStep_entry_time]
  exact hc

theorem btRun_inv (fee : ℚ) (bars : List (ℚ × ℚ)) :
    ∀ (st : BTState) (ts : ℕ), TradesInv st ts →
      TradesInv (btRun fee st ts bars) (ts + bars.length) := by
  induction bars with
  | nil => intro st ts h; simpa [btRun] using h
  | cons bar rest ih =>
      intro st ts h
      obtain ⟨price, sig⟩ := bar
      have := ih (btStep fee st ts price sig) (ts + 1) (btStep_inv fee st ts price sig h)
      simpa [btRun, Nat.add_comm, Nat.add_assoc, Nat.add_left_comm] using this

theorem btInit_inv (initial_capital : ℚ) : TradesInv (btInit initial_capital) 0 := by
  refine ⟨?_, ?_, ?_, ?_⟩ <;> simp [btInit, TradesInv]

/-- C8: every trade emitted by `backtest_strategy` closes strictly after it
opens, and the emitted list is chronological and non-overlapping: each
trade's entry time is at or after the previous trade's exit time, so at most
one trade is open at any bar. -/
theorem C8_trades_invariant (bars : List (ℚ × ℚ)) (initial_capital fee_pct : ℚ) :
    (∀ t ∈ (backtest_strategy bars initial_capital fee_pct).trades,
        t.entry_time < t.exit_time) ∧
    (backtest_strategy bars initial_capital fee_pct).trades.Chain'
      (fun a b => a.exit_time ≤ b.entry_time) := by
  have h := btRun_inv fee_pct bars (btInit initial_capital) 0 (btInit_inv initial_capital)
  obtain ⟨h1, -, h3, -⟩ := h
  have heq : (backtest_strategy bars initial_capital fee_pct).trades =
      (btRun fee_pct (btInit initial_capital) 0 bars).trades := rfl
  rw [heq]
  exact ⟨h1, List.Chain'.imp (fun a b hab => le_of_lt hab) h3⟩

/-! ## Claims about combine_signals -/

theorem combine_signals_and_eq (signals : List (List PVal)) (hne : signals.isEmpty = false) :
    combine_signals signals "and" =
      some ((List.range ((signals.map List.length).foldr Nat.max 0)).map
        (fun i => andRow (colAt signals i))) := by
  have h1 : pyLower "and" = "and" := rfl
  simp [combine_signals, hne, h1]

theorem combine_signals_or_eq (signals : List (List PVal)) (hne : signals.isEmpty = false) :
    combine_signals signals "or" =
      some ((List.range ((signals.map List.length).foldr Nat.max 0)).map
        (fun i => orRow (colAt signals i))) := by
  have h1 : pyLower "or" = "or" := rfl
  simp [combine_signals, hne, h1]

theorem andRow_cases (col : List PVal) :
    andRow col = -1 ∨ andRow col = 0 ∨ andRow col = 1 := by
  unfold andRow
  split_ifs <;> simp

theorem orRow_cases (col : List PVal) :
    orRow col = -1 ∨ orRow col = 0 ∨ orRow col = 1 := by
  unfold orRow
  split_ifs <;> simp

/-- C10: for any non-empty list of input series, even with out-of-range or
NaN entries, combining under "and" or "or" succeeds and every output value
is -1, 0 or 1 (NaN entries count as neither positive nor negative). -/
theorem C10_combine_output_range (signals : List (List PVal)) (logic : String)
    (hne : signals ≠ []) (hlogic : logic = "and" ∨ logic = "or") :
    ∃ out, combine_signals signals logic = some out ∧
      ∀ v ∈ out, v = -1 ∨ v = 0 ∨ v = 1 := by
  have hempty : signals.isEmpty = false := by
    simpa [List.isEmpty_iff] using hne
  rcases hlogic with h | h <;> subst h
  · refine ⟨_, combine_signals_and_eq signals hempty, ?_⟩
    intro v hv
    obtain ⟨i, -, rfl⟩ := List.mem_map.mp hv
    exact andRow_cases _
  · refine ⟨_, combine_signals_or_eq signals hempty, ?_⟩
    intro v hv
    obtain ⟨i, -, rfl⟩ := List.mem_map.mp hv
    exact orRow_cases _

/-- Closed witness for C10 at a concrete input with a NaN and an out-of-range
value. -/
theorem C10_combine_output_range_witness :
    ∃ out, combine_signals [[some 2, none], [some 1, some 1]] "or" = some out ∧
      ∀ v ∈ out, v = -1 ∨ v = 0 ∨ v = 1 :=
  C10_combine_output_range [[some 2, none], [some 1, some 1]] "or"
    (by simp) (Or.inr rfl)

theorem andRow_single (q : ℚ) (hq : q = -1 ∨ q = 0 ∨ q = 1) :
    some ((andRow [some q] : ℤ) : ℚ) = some q := by
  rcases hq with h | h | h <;> subst h <;> norm_num [andRow, pvalPos, pvalNeg]

theorem orRow_single (q : ℚ) (hq : q = -1 ∨ q = 0 ∨ q = 1) :
    some ((orRow [some q] : ℤ) : ℚ) = some q := by
  rcases hq with h | h | h <;> subst h <;> norm_num [orRow, pvalPos, pvalNeg]

/-- C9: combining a single signal series whose values lie in -1, 0, 1
reproduces that series pointwise, under either logic. -/
theorem C9_single_signal_identity (s : List PVal) (logic : String)
    (hvals : ∀ v ∈ s, v = some (-1) ∨ v = some 0 ∨ v = some 1)
    (hlogic : logic = "and" ∨ logic = "or") :
    ∃ out, combine_signals [s] logic = some out ∧ out.length = s.length ∧
      ∀ i, i < s.length → s.getD i none = some ((out.getD i 0 : ℤ) : ℚ) := by
  have hn : (([s].map List.length).foldr Nat.max 0) = s.length := by
    simp
  have hmem : ∀ i, i < s.length → s.getD i none ∈ s := by
    intro i hi
    rw [List.getD_eq_getElem _ _ hi]
    exact List.getElem_mem hi
  have hval : ∀ i, i < s.length → ∃ q : ℚ, s.getD i none = some q ∧
      (q = -1 ∨ q = 0 ∨ q = 1) := by
    intro i hi
    rcases hvals _ (hmem i hi) with h | h | h
    · exact ⟨-1, h, Or.inl rfl⟩
    · exact ⟨0, h, Or.inr (Or.inl rfl)⟩
    · exact ⟨1, h, Or.inr (Or.inr rfl)⟩
  rcases hlogic with h | h <;> subst h
  · refine ⟨_, combine_signals_and_eq [s] rfl, ?_, ?_⟩
    · simp [hn]
    · intro i hi
      have hi' : i < (((List.range (([s].map List.length).foldr Nat.max 0))).map
          (fun i => andRow (colAt [s] i))).length := by
        simpa [hn] using hi
      rw [List.getD_eq_getElem _ _ hi']
      simp only [List.getElem_map, List.getElem_range]
      obtain ⟨q, hq, hq3⟩ := hval i hi
      rw [show colAt [s] i = [s.getD i none] from rfl, hq]
      exact (andRow_single q hq3).symm
  · refine ⟨_, combine_signals_or_eq [s] rfl, ?_, ?_⟩
    · simp [hn]
    · intro i hi
      have hi' : i < (((List.range (([s].map List.length).foldr Nat.max 0))).map
          (fun i => orRow (colAt [s] i))).length := by
        simpa [hn] using hi
      rw [List.getD_eq_getElem _ _ hi']
      simp only [List.getElem_map, List.getElem_range]
      obtain ⟨q, hq, hq3⟩ := hval i hi
      rw [show colAt [s] i = [s.getD i none] from rfl, hq]
      exact (orRow_single q hq3).symm

/-- Closed witness for C9 at a concrete three-valued series. -/
theorem C9_single_signal_identity_witness :
    ∃ out, combine_signals [[some 1, some 0, some (-1)]] "or" = some out ∧
      out.length = 3 ∧
      ∀ i, i < 3 →
        [some (1 : ℚ), some 0, some (-1)].getD i none = some ((out.getD i 0 : ℤ) : ℚ) :=
  C9_single_signal_identity [some 1, some 0, some (-1)] "or"
    (by intro v hv; simp only [List.mem_cons, List.not_mem_nil, or_false] at hv
        rcases hv with h | h | h <;> subst h <;> simp)
    (Or.inr rfl)

theorem colAt_any_pos (signals : List (List PVal))
    (hvals : ∀ s ∈ signals, ∀ v ∈ s, v = some (-1) ∨ v = some 0 ∨ v = some 1) (i : ℕ) :
    (colAt signals i).any pvalPos = true ↔ ∃ s ∈ signals, s.getD i none = some 1 := by
  rw [List.any_eq_true]
  constructor
  · rintro ⟨v, hv, hpos⟩
    obtain ⟨s, hs, rfl⟩ := List.mem_map.mp hv
    refine ⟨s, hs, ?_⟩
    by_cases hi : i < s.length
    · rw [List.getD_eq_getElem _ _ hi] at hpos ⊢
      rcases hvals s hs _ (List.getElem_mem hi) with h | h | h <;>
        rw [h] at hpos ⊢ <;> norm_num [pvalPos] at hpos ⊢
    · rw [List.getD_eq_default _ _ (Nat.le_of_not_lt hi)] at hpos
      norm_num [pvalPos] at hpos
  · rintro ⟨s, hs, hone⟩
    refine ⟨s.getD i none, List.mem_map.mpr ⟨s, hs, rfl⟩, ?_⟩
    rw [hone]
    norm_num [pvalPos]

theorem colAt_any_neg (signals : List (List PVal))
    (hvals : ∀ s ∈ signals, ∀ v ∈ s, v = some (-1) ∨ v = some 0 ∨ v = some 1) (i : ℕ) :
    (colAt signals i).any pvalNeg = true ↔ ∃ s ∈ signals, s.getD i none = some (-1) := by
  rw [List.any_eq_true]
  constructor
  · rintro ⟨v, hv, hneg⟩
    obtain ⟨s, hs, rfl⟩ := List.mem_map.mp hv
    refine ⟨s, hs, ?_⟩
    by_cases hi : i < s.length
    · rw [List.getD_eq_getElem _ _ hi] at hneg ⊢
      rcases hvals s hs _ (List.getElem_mem hi) with h | h | h <;>
        rw [h] at hneg ⊢ <;> norm_num [pvalNeg] at hneg ⊢
    · rw [List.getD_eq_default _ _ (Nat.le_of_not_lt hi)] at hneg
      norm_num [pvalNeg] at hneg
  · rintro ⟨s, hs, hone⟩
    refine ⟨s.getD i none, List.mem_map.mpr ⟨s, hs, rfl⟩, ?_⟩
    rw [hone]
    norm_num [pvalNeg]

theorem orRow_eq_one_iff (col : List PVal) :
    orRow col = 1 ↔ (col.any pvalPos = true ∧ col.any pvalNeg = false) := by
  unfold orRow
  cases hp : col.any pvalPos <;> cases hn : col.any pvalNeg <;> simp

theorem orRow_eq_negone_iff (col : List PVal) :
    orRow col = -1 ↔ (col.any pvalNeg = true ∧ col.any pvalPos = false) := by
  unfold orRow
  cases hp : col.any pvalPos <;> cases hn : col.any pvalNeg <;> simp

/-- C6: pointwise semantics of the "or" combination on three-valued inputs —
1 exactly where some input is 1 and none is -1, -1 exactly where some input
is -1 and none is 1, and 0 at every index with mixed signs. -/
theorem C6_or_semantics (signals : List (List PVal))
    (hne : signals ≠ [])
    (hvals : ∀ s ∈ signals, ∀ v ∈ s, v = some (-1) ∨ v = some 0 ∨ v = some 1) :
    ∃ out, combine_signals signals "or" = some out ∧
      ∀ i, i < out.length →
        ((out.getD i 0 = 1 ↔
            ((∃ s ∈ signals, s.getD i none = some 1) ∧
             ¬ ∃ s ∈ signals, s.getD i none = some (-1))) ∧
         (out.getD i 0 = -1 ↔
            ((∃ s ∈ signals, s.getD i none = some (-1)) ∧
             ¬ ∃ s ∈ signals, s.getD i none = some 1)) ∧
         (((∃ s ∈ signals, s.getD i none = some 1) ∧
           (∃ s ∈ signals, s.getD i none = some (-1))) → out.getD i 0 = 0)) := by
  have hempty : signals.isEmpty = false := by
    simpa [List.isEmpty_iff] using hne
  refine ⟨_, combine_signals_or_eq signals hempty, ?_⟩
  intro i hi
  rw [List.getD_eq_getElem _ _ hi]
  have hlen : i < (List.range ((signals.map List.length).foldr Nat.max 0)).length := by
    simpa using hi
  simp only [List.getElem_map, List.getElem_range]
  have hpos := colAt_any_pos signals hvals i
  have hneg := colAt_any_neg signals hvals i
  refine ⟨?_, ?_, ?_⟩
  · rw [orRow_eq_one_iff]
    constructor
    · rintro ⟨ha, hb⟩
      refine ⟨hpos.mp ha, fun hc => ?_⟩
      rw [hneg.mpr hc] at hb
      simp at hb
    · rintro ⟨ha, hb⟩
      refine ⟨hpos.mpr ha, ?_⟩
      cases hcase : (colAt signals i).any pvalNeg with
      | false => rfl
      | true => exact absurd (hneg.mp hcase) hb
  · rw [orRow_eq_negone_iff]
    constructor
    · rintro ⟨ha, hb⟩
      refine ⟨hneg.mp ha, fun hc => ?_⟩
      rw [hpos.mpr hc] at hb
      simp at hb
    · rintro ⟨ha, hb⟩
      refine ⟨hneg.mpr ha, ?_⟩
      cases hcase : (colAt signals i).any pvalPos with
      | false => rfl
      | true => exact absurd (hpos.mp hcase) hb
  · rintro ⟨hone, hmone⟩
    have h1 : (colAt signals i).any pvalPos = true := hpos.mpr hone
    have h2 : (colAt signals i).any pvalNeg = true := hneg.mpr hmone
    unfold orRow
    simp [h1, h2]

/-- Closed witness for C6 at a two-series input containing a mixed-sign
index. -/
theorem C6_or_semantics_witness :
    ∃ out, combine_signals [[some 1, some 0], [some (-1), some 1]] "or" = some out ∧
      ∀ i, i < out.length →
        ((out.getD i 0 = 1 ↔
            ((∃ s ∈ [[some (1 : ℚ), some 0], [some (-1), some 1]], s.getD i none = some 1) ∧
             ¬ ∃ s ∈ [[some (1 : ℚ), some 0], [some (-1), some 1]],
                s.getD i none = some (-1))) ∧
         (out.getD i 0 = -1 ↔
            ((∃ s ∈ [[some (1 : ℚ), some 0], [some (-1), some 1]],
                s.getD i none = some (-1)) ∧
             ¬ ∃ s ∈ [[some (1 : ℚ), some 0], [some (-1), some 1]], s.getD i none = some 1)) ∧
         (((∃ s ∈ [[some (1 : ℚ), some 0], [some (-1), some 1]], s.getD i none = some 1) ∧
           (∃ s ∈ [[some (1 : ℚ), some 0], [some (-1), some 1]],
              s.getD i none = some (-1))) → out.getD i 0 = 0)) :=
  C6_or_semantics [[some 1, some 0], [some (-1), some 1]]
    (by simp)
    (by intro s hs v hv
        simp only [List.mem_cons, List.not_mem_nil, or_false] at hs
        rcases hs with h | h <;> subst h <;>
          simp only [List.mem_cons, List.not_mem_nil, or_false] at hv <;>
          rcases hv with h | h <;> simp [h])

/-! ## ohlc_fetcher.py — clamp_range, the CoinGecko retry loop, fetch_ohlc

UTC datetimes are modelled as integer microseconds since the epoch (Python
datetimes have microsecond resolution); `date()` is the floor day. -/

/-- Microseconds per day. -/
def usPerDay : ℤ := 86400000000

/-- `datetime.date()` as a day number (floor division, as for UTC instants). -/
def dateOf (t : ℤ) : ℤ := Int.fdiv t usPerDay

/-- Default of the `COINGECKO_MAX_LOOKBACK_DAYS` environment variable. -/
def MAX_LOOKBACK_DAYS : ℤ := 365

/-- `clamp_range(start, end)` of `core/ohlc_fetcher.py`, parametrised by the
configured lookback: swap the endpoints if inverted, and if the whole-day
span exceeds the lookback, move `end` to 23:59:59.000000 of its day and
`start` to exactly `maxLookbackDays` days earlier. -/
def clamp_range (maxLookbackDays : ℤ) (start endT : ℤ) : ℤ × ℤ :=
  let p := if start > endT then (endT, start) else (start, endT)
  let span_days := dateOf p.2 - dateOf p.1
  if span_days > maxLookbackDays then
    let e2 := dateOf p.2 * usPerDay + 86399000000
    (e2 - maxLookbackDays * usPerDay, e2)
  else p

/-- C7: whenever the (swap-corrected) requested range spans more whole days
than the configured lookback, the effective start returned by `clamp_range`
is exactly the adjusted end minus the lookback. -/
theorem C7_clamp_range_start (maxLookbackDays start endT : ℤ)
    (h : dateOf (max start endT) - dateOf (min start endT) > maxLookbackDays) :
    (clamp_range maxLookbackDays start endT).1 =
      (clamp_range maxLookbackDays start endT).2 - maxLookbackDays * usPerDay := by
  unfold clamp_range
  by_cases hswap : start > endT
  · have hmax : max start endT = start := max_eq_left (le_of_lt hswap)
    have hmin : min start endT = endT := min_eq_right (le_of_lt hswap)
    rw [hmax, hmin] at h
    simp only [hswap, if_true, gt_iff_lt]
    rw [if_pos h]
  · have hle : start ≤ endT := le_of_not_lt hswap
    have hmax : max start endT = endT := max_eq_right hle
    have hmin : min start endT = start := min_eq_left hle
    rw [hmax, hmin] at h
    simp only [hswap, if_false, gt_iff_lt]
    rw [if_pos h]

/-- Closed witness for C7: a 400-day range against the default 365-day
lookback. -/
theorem C7_clamp_range_start_witness :
    (clamp_range MAX_LOOKBACK_DAYS 0 (400 * usPerDay)).1 =
      (clamp_range MAX_LOOKBACK_DAYS 0 (400 * usPerDay)).2 -
        MAX_LOOKBACK_DAYS * usPerDay :=
  C7_clamp_range_start MAX_LOOKBACK_DAYS 0 (400 * usPerDay) (by decide)

/-- Default of the `COINGECKO_MAX_RETRIES` environment variable: the retry
loop runs `for attempt in range(1, CG_MAX_RETRIES + 1)`, i.e. at most three
requests in total. -/
def CG_MAX_RETRIES : ℕ := 3

/-- Default of the `COINGECKO_BACKOFF_BASE_SECS` environment variable. -/
def CG_BACKOFF_BASE_SECS : ℚ := 3/2

/-- Outcome of `_cg_get_json`: the successful attempt number together with
the sleep delays performed so far, or one of the raised errors. -/
inductive CGOutcome where
  | ok (attempt : ℕ) (delays : List ℚ)
  | unauthorizedError (attempt : ℕ)
  | upstreamError (status : ℕ) (delays : List ℚ)
  | clientError (status : ℕ) (delays : List ℚ)
  | exhausted (delays : List ℚ)
deriving DecidableEq, Repr

/-- The body of the `for attempt in range(1, CG_MAX_RETRIES + 1)` loop of
`_cg_get_json`, with `resp attempt` the HTTP status of the response to the
`attempt`-th request and `remaining` the iterations the range still holds:
401 raises immediately; 429 and 5xx raise on the last attempt and otherwise
sleep `base * 2 ^ (attempt - 1)` and continue; other 4xx raise; anything
else returns the payload of this attempt. -/
def cgLoop (resp : ℕ → ℕ) (maxRetries : ℕ) (base : ℚ) :
    ℕ → ℕ → List ℚ → CGOutcome
  | 0, _, delays => .exhausted delays
  | remaining + 1, attempt, delays =>
    let status := resp attempt
    if status = 401 then .unauthorizedError attempt
    else if status = 429 ∨ (500 ≤ status ∧ status < 600) then
      if attempt = maxRetries then .upstreamError status delays
      else cgLoop resp maxRetries base remaining (attempt + 1)
        (delays ++ [base * 2 ^ (attempt - 1)])
    else if 400 ≤ status then .clientError status delays
    else .ok attempt delays

/-- `_cg_get_json` of `core/ohlc_fetcher.py` as a function of the status of
each successive response. -/
def cg_get_json (resp : ℕ → ℕ) (maxRetries : ℕ) (base : ℚ) : CGOutcome :=
  cgLoop resp maxRetries base maxRetries 1 []

/-- Responses for the C3 scenario: the first three requests are rate-limited
(429), any further request would succeed (200). -/
def respC3 (attempt : ℕ) : ℕ := if attempt ≤ 3 then 429 else 200

/-- Responses for the amended C3 scenario: the first two requests are
rate-limited, the third succeeds. -/
def respC3amended (attempt : ℕ) : ℕ := if attempt ≤ 2 then 429 else 200

/-- C3 counterexample: with the default budget `CG_MAX_RETRIES = 3` the loop
makes at most three requests, so three consecutive 429 responses exhaust the
budget and the call raises an upstream error after two backoff sleeps — the
fourth (successful) response is never requested and no payload is
returned. -/
theorem C3_three_429_raises :
    cg_get_json respC3 CG_MAX_RETRIES CG_BACKOFF_BASE_SECS =
      CGOutcome.upstreamError 429 [3/2, 3] := by
  norm_num [cg_get_json, cgLoop, respC3, CG_MAX_RETRIES, CG_BACKOFF_BASE_SECS]

/-- C3 amended: if only the first two responses are 429 and the third is a
success, the call returns the payload of the third attempt, and the sleeps
between consecutive attempts grow geometrically as `base * 2 ^ 0`,
`base * 2 ^ 1`. -/
theorem C3_two_429_then_success (base : ℚ) :
    cg_get_json respC3amended CG_MAX_RETRIES base =
      CGOutcome.ok 3 [base * 2 ^ 0, base * 2 ^ 1] := by
  norm_num [cg_get_json, cgLoop, respC3amended, CG_MAX_RETRIES]

/-- Result of the fallback branch of `fetch_ohlc`: the CoinGecko frame is
either an error raised by the request loop, or a list of bar timestamps which
is returned as-is when empty and otherwise filtered to the original
requested range. -/
def fetchFallback (start endT : ℤ) (cgRes : Except String (List ℤ)) :
    Except String (List ℤ) :=
  match cgRes with
  | .error e => .error e
  | .ok df =>
      if df.isEmpty then .ok df
      else .ok (df.filter (fun t => decide (start ≤ t) && decide (t ≤ endT)))

/-- `fetch_ohlc` of `core/ohlc_fetcher.py` as a function of the two source
results: an inverted or empty range returns an empty frame; a non-empty
primary (Binance) frame is returned as-is, an exception from the primary
attempt (`none`) or an empty primary frame falls through to the CoinGecko
fallback.  Bars are represented by their UTC timestamps, the only field the
claim inspects. -/
def fetch_ohlc (start endT : ℤ) (binanceRes : Option (List ℤ))
    (cgRes : Except String (List ℤ)) : Except String (List ℤ) :=
  if start ≥ endT then .ok []
  else
    match binanceRes with
    | some df => if ¬ df.isEmpty then .ok df else fetchFallback start endT cgRes
    | none => fetchFallback start endT cgRes

/-- C2 counterexample: when the primary source yields no bars and the
fallback returns an empty series, `fetch_ohlc` returns an empty successful
frame — there is no `NoDataError` anywhere in the fetcher (the HTTP layer
separately maps the empty frame to a 404). -/
theorem C2_empty_is_success :
    fetch_ohlc 0 1 (some []) (Except.ok []) = Except.ok [] := rfl

/-- C2 amended: whenever the primary attempt raises or yields an empty
frame and the fallback returns an empty series, `fetch_ohlc` returns the
empty series as a success rather than raising a distinct not-found error. -/
theorem C2_both_empty_returns_empty_ok (start endT : ℤ) (binanceRes : Option (List ℤ))
    (hbin : binanceRes = none ∨ binanceRes = some []) :
    fetch_ohlc start endT binanceRes (Except.ok []) = Except.ok [] := by
  rcases hbin with h | h <;> subst h <;>
    simp [fetch_ohlc, fetchFallback]

/-- Closed witness for the amended C2. -/
theorem C2_both_empty_returns_empty_ok_witness :
    fetch_ohlc 0 1 none (Except.ok []) = Except.ok [] :=
  C2_both_empty_returns_empty_ok 0 1 none (Or.inl rfl)

/-! ## indicators.py — compute_rsi

The RSI pipeline can produce IEEE special values (`avg_gain / avg_loss` is
0/0 = NaN on a flat series and x/0 = +inf when only gains occur), so its
values live in a four-constructor float model `FV`; the finite inputs and the
exponential-smoothing recursion stay exact rationals. -/

/-- A float value of the RSI pipeline: NaN, plus or minus infinity, or a
finite rational. -/
inductive FV where
  | nan
  | pinf
  | ninf
  | fin (q : ℚ)
deriving DecidableEq, Repr

/-- IEEE negation on the model (signed zero is irrelevant here). -/
def FV.neg : FV → FV
  | .nan => .nan
  | .pinf => .ninf
  | .ninf => .pinf
  | .fin q => .fin (-q)

/-- IEEE addition on the model. -/
def FV.add : FV → FV → FV
  | .nan, _ => .nan
  | _, .nan => .nan
  | .pinf, .ninf => .nan
  | .ninf, .pinf => .nan
  | .pinf, _ => .pinf
  | _, .pinf => .pinf
  | .ninf, _ => .ninf
  | _, .ninf => .ninf
  | .fin a, .fin b => .fin (a + b)

/-- IEEE subtraction on the model. -/
def FV.sub (a b : FV) : FV := a.add b.neg

/-- IEEE division on the model (ignoring signed zero, which never feeds a
division in this pipeline: denominators are the non-negative `avg_loss` and
`1 + rs`). -/
def FV.div : FV → FV → FV
  | .nan, _ => .nan
  | _, .nan => .nan
  | .pinf, .pinf => .nan
  | .pinf, .ninf => .nan
  | .ninf, .pinf => .nan
  | .ninf, .ninf => .nan
  | .pinf, .fin b => if b < 0 then .ninf else .pinf
  | .ninf, .fin b => if b < 0 then .pinf else .ninf
  | .fin _, .pinf => .fin 0
  | .fin _, .ninf => .fin 0
  | .fin a, .fin b =>
      if b = 0 then (if 0 < a then .pinf else if a < 0 then .ninf else .nan)
      else .fin (a / b)

/-- Embed a possibly-missing rational into the float model. -/
def toFV : Option ℚ → FV
  | none => .nan
  | some q => .fin q

/-- `Series.diff()`: NaN at the first position, consecutive differences
afterwards. -/
def seriesDiff (close : List ℚ) : List (Option ℚ) :=
  match close with
  | [] => []
  | x :: xs => none :: List.zipWith (fun cur prev => some (cur - prev)) xs (x :: xs)

/-- `delta.where(delta > 0, 0.0)`: keep positive moves, replace NaN and
non-positive moves by 0. -/
def whereGain : Option ℚ → ℚ
  | some d => if 0 < d then d else 0
  | none => 0

/-- `-delta.where(delta < 0, 0.0)`: the magnitude of negative moves, with
NaN and non-negative moves replaced by 0. -/
def whereLoss : Option ℚ → ℚ
  | some d => if d < 0 then -d else 0
  | none => 0

/-- The `ewm(alpha, adjust=False).mean()` recursion continued from value
`y`. -/
def ewmAux (alpha y : ℚ) : List ℚ → List ℚ
  | [] => []
  | x :: xs =>
      ((1 - alpha) * y + alpha * x) :: ewmAux alpha ((1 - alpha) * y + alpha * x) xs

/-- `ewm(alpha, adjust=False).mean()` on a series without missing values:
the first output equals the first input and each further output is
`(1 - alpha) * previous + alpha * current`. -/
def ewmMean (alpha : ℚ) : List ℚ → List ℚ
  | [] => []
  | x :: xs => x :: ewmAux alpha x xs

/-- The `min_periods=window` mask: on a series without missing values the
observation count at position `i` is `i + 1`, so positions before
`window - 1` become NaN. -/
def minPeriods (window : ℕ) (l : List ℚ) : List (Option ℚ) :=
  l.mapIdx (fun i x => if window ≤ i + 1 then some x else none)

/-- `compute_rsi(close, window)` of `core/indicators.py`: Wilder smoothing of
gains and losses with `alpha = 1/window`, then
`rsi = 100 - 100 / (1 + avg_gain / avg_loss)` in float semantics. -/
def compute_rsi (close : List ℚ) (window : ℕ) : List FV :=
  let delta := seriesDiff close
  let gain := delta.map whereGain
  let loss := delta.map whereLoss
  let avg_gain := minPeriods window (ewmMean (1 / (window : ℚ)) gain)
  let avg_loss := minPeriods window (ewmMean (1 / (window : ℚ)) loss)
  List.zipWith (fun g l =>
    let rs := FV.div (toFV g) (toFV l)
    FV.sub (.fin 100) (FV.div (.fin 100) (FV.add (.fin 1) rs))) avg_gain avg_loss

/-- C4: the claim (and the repository's own `test_compute_rsi`, which
asserts a value near 50) fails on the code.  On the constant series of
twenty 1s with window 14 the post-warm-up RSI is NaN, because
`avg_gain / avg_loss` is the float division 0/0 — not the neutral 50; the
companion part of the claim does hold: on a strictly increasing series
`avg_loss = 0 < avg_gain` and the RSI is exactly 100. -/
theorem C4_constant_rsi_is_nan :
    (compute_rsi (List.replicate 20 1) 14).getD 19 (FV.fin 0) = FV.nan ∧
    FV.nan ≠ FV.fin 50 ∧
    (compute_rsi ((List.range 20).map (fun i => (i : ℚ))) 14).getD 19 (FV.fin 0) = FV.fin 100 := by
  refine ⟨?_, by simp, ?_⟩ <;>
    norm_num [compute_rsi, seriesDiff, whereGain, whereLoss, ewmMean, ewmAux, minPeriods,
      toFV, FV.div, FV.add, FV.sub, FV.neg, List.replicate, List.range, List.range.loop]

end CryptoIot
